import Mathlib

/-!
Verification development for the dev-manifest content source
(`packages/next-swc/crates/next-core/src/manifest.rs`).

The Rust source is shallowly embedded:
* `PageSortKey` and its derived `Ord` instance are embedded as the inductive
  `PageSortKey` together with the comparator `cmpPSK`; Rust's derived
  lexicographic ordering on `Vec<PageSortKey>` is `lexCmp cmpPSK`.
* Strings are treated as their character lists (`String.data`); Rust's
  byte-wise lexicographic string order coincides with code-point order on
  valid UTF-8, which is the character-list lexicographic order used here.
* `routes.sort_by_cached_key(..)` is a stable sort by the computed key; it is
  embedded as Mathlib's `List.insertionSort` over the non-strict key order
  `keyLe` (insertion sort with a non-strict total preorder is stable, and any
  two stable sorts by the same preorder agree pointwise).
* `Vec::dedup` removes *consecutive* duplicates keeping the first of each run;
  it is embedded as `rustDedup`.
* The provider-tree traversal (`NonDeterministic::new().visit(...)`) and the
  fallible async calls are embedded as an explicit breadth-first closure
  `visit` over a `ProviderGraph` whose `children`/`pathname` operations return
  `Except`, with a fuel parameter standing for the (always finite in the real
  system) number of processing steps; running out of fuel is an error, never a
  silent partial result, matching the fact that the real traversal only
  completes by exhausting the frontier.
-/

/-! ## Definitions -/

/-- Mirror of the Rust enum `PageSortKey` (manifest.rs:211-216).
`Static` carries the segment text as a character list. -/
inductive PageSortKey : Type
  | Static : List Char → PageSortKey
  | Slug : PageSortKey
  | CatchAll : PageSortKey
deriving DecidableEq, Repr

/-- Comparator on characters by code point, matching Rust's `char`/byte
ordering used by `String`'s derived `Ord`. -/
def cmpChar (a b : Char) : Ordering :=
  if a < b then .lt else if a = b then .eq else .gt

/-- Lexicographic comparison of lists given a comparator on elements; a proper
prefix compares `lt`.  This is the ordering Rust derives for `Vec<T>` and for
`String` (over `cmpChar`). -/
def lexCmp (cmp : α → α → Ordering) : List α → List α → Ordering
  | [], [] => .eq
  | [], _ :: _ => .lt
  | _ :: _, [] => .gt
  | x :: xs, y :: ys => (cmp x y).then (lexCmp cmp xs ys)

/-- The comparator Rust derives for `PageSortKey` with
`#[derive(Ord, PartialOrd, Eq, PartialEq)]`: variants compare by declaration
order `Static < Slug < CatchAll`, and two `Static` values compare by their
inner text. -/
def cmpPSK : PageSortKey → PageSortKey → Ordering
  | .Static a, .Static b => lexCmp cmpChar a b
  | .Static _, .Slug => .lt
  | .Static _, .CatchAll => .lt
  | .Slug, .Static _ => .gt
  | .Slug, .Slug => .eq
  | .Slug, .CatchAll => .lt
  | .CatchAll, .Static _ => .gt
  | .CatchAll, .Slug => .gt
  | .CatchAll, .CatchAll => .eq

/-- Mirror of `impl From<&str> for PageSortKey` (manifest.rs:218-228):
`[[..]]` is `CatchAll`, otherwise `[..]` is `Slug`, otherwise `Static`. -/
def pageSortKeyFrom (value : List Char) : PageSortKey :=
  if ['[', '['].isPrefixOf value && [']', ']'].isSuffixOf value then
    .CatchAll
  else if ['['].isPrefixOf value && [']'].isSuffixOf value then
    .Slug
  else
    .Static value

/-- `From<&str>` applied to a Lean `String` segment. -/
def pageSortKeyOfSeg (s : String) : PageSortKey :=
  pageSortKeyFrom s.data

/-- Mirror of Rust's `str::split('/')`: splits at every `/`, keeping empty
pieces (so `"".split` is `[""]` and `"/a"` splits to `["", "a"]`). -/
def splitSeg : List Char → List (List Char)
  | [] => [[]]
  | c :: rest =>
    if c = '/' then [] :: splitSeg rest
    else
      match splitSeg rest with
      | [] => [[c]]
      | seg :: segs => (c :: seg) :: segs

/-- The cached sort key of a route computed in `find_routes`
(manifest.rs:82): `s.split('/').map(PageSortKey::from).collect::<Vec<_>>()`. -/
def routeKey (s : String) : List PageSortKey :=
  (splitSeg s.data).map pageSortKeyFrom

/-- The key comparison used by the sort. -/
def cmpRouteKeys (a b : String) : Ordering :=
  lexCmp cmpPSK (routeKey a) (routeKey b)

/-- Non-strict order on routes induced by the sort key (`a` not above `b`). -/
def keyLe (a b : String) : Prop :=
  cmpRouteKeys a b ≠ Ordering.gt

instance decKeyLe : DecidableRel keyLe := fun a b =>
  if h : cmpRouteKeys a b = Ordering.gt then
    .isFalse (fun hc => hc h)
  else
    .isTrue h

/-- Helper for `rustDedup`: `a` is the most recently kept element. -/
def dedupFrom {α : Type _} [DecidableEq α] (a : α) : List α → List α
  | [] => []
  | b :: l => if a = b then dedupFrom a l else b :: dedupFrom b l

/-- Mirror of `Vec::dedup` (manifest.rs:83): removes consecutive duplicate
elements, keeping the first element of each run. -/
def rustDedup {α : Type _} [DecidableEq α] : List α → List α
  | [] => []
  | a :: l => a :: dedupFrom a l

/-- The sort step of `find_routes` (manifest.rs:82), a stable sort by the
per-segment key. -/
def sortRoutes (l : List String) : List String :=
  List.insertionSort keyLe l

/-- The whole ordering/dedup stage of `find_routes` (manifest.rs:82-83). -/
def orderAndDedup (l : List String) : List String :=
  rustDedup (sortRoutes l)

/-- The provider-node graph walked by `find_routes` (manifest.rs:40-86).
Nodes are identified by `Nat` (standing for the identity of a
`Vc<Box<dyn ContentSource>>` handle).  `children` embeds
`get_content_source_children` (a fallible resolution of the node's child
list); `pathname` embeds `content_source_to_pathname` (a fallible test
whether the node is a known leaf kind carrying a pathname; `none` means an
unknown/container node, which is not an error). -/
structure ProviderGraph where
  children : Nat → Except String (List Nat)
  pathname : Nat → Except String (Option String)

/-- The identity-keyed graph closure performed by
`NonDeterministic::new().visit(..)` followed by `.completed()?`
(manifest.rs:68-71), determinized to a breadth-first loop.  A node reachable
through several parents is expanded once (the `visited` check).  Any failing
`children` call makes the whole traversal fail.  `fuel` bounds the number of
processing steps; the real traversal only ever completes by emptying the
frontier, so exhausting the fuel is mapped to an error, never to a partial
success. -/
def visit (g : ProviderGraph) : Nat → List Nat → List Nat →
    Except String (List Nat)
  | _, visited, [] => .ok visited
  | 0, _, _ :: _ => .error "traversal interrupted"
  | fuel + 1, visited, n :: frontier =>
    if n ∈ visited then visit g fuel visited frontier
    else
      match g.children n with
      | .error e => .error e
      | .ok cs => visit g fuel (n :: visited) (frontier ++ cs)

/-- `routes.into_iter().map(content_source_to_pathname).try_join().await?`
(manifest.rs:72-75): resolve every node's pathname, failing as a whole if
any single resolution fails. -/
def mapExcept (f : Nat → Except String (Option String)) :
    List Nat → Except String (List (Option String))
  | [] => .ok []
  | a :: l =>
    match f a with
    | .error e => .error e
    | .ok b =>
      match mapExcept f l with
      | .error e => .error e
      | .ok bs => .ok (b :: bs)

/-- `DevManifestContentSource::find_routes` (manifest.rs:40-86): traverse the
provider graph from `roots`, extract pathnames (dropping nodes without one),
sort by the per-segment key and dedup. -/
def findRoutes (g : ProviderGraph) (roots : List Nat) (fuel : Nat) :
    Except String (List String) :=
  match visit g fuel [] roots with
  | .error e => .error e
  | .ok nodes =>
    match mapExcept g.pathname nodes with
    | .error e => .error e
    | .ok opts => .ok (orderAndDedup (opts.filterMap id))

/-- `DevManifestContentSource::find_pages` (manifest.rs:91-102): the routes
whose string does not start with `"/api"` (`!s.starts_with("/api")`),
in the already-sorted order. -/
def findPages (g : ProviderGraph) (roots : List Nat) (fuel : Nat) :
    Except String (List String) :=
  match findRoutes g roots fuel with
  | .error e => .error e
  | .ok routes => .ok (routes.filter fun s => !("/api".data.isPrefixOf s.data))

/-- Reachability in the provider graph while avoiding the nodes in `avoid`:
`Reach g avoid x b` holds when there is a chain of successful `children`
resolutions from `x` to `b` that keeps clear of `avoid`.  With
`avoid = []` this is plain reachability. -/
inductive Reach (g : ProviderGraph) : List Nat → Nat → Nat → Prop
  | refl (avoid : List Nat) (n : Nat) : n ∉ avoid → Reach g avoid n n
  | step (avoid : List Nat) (n c m : Nat) (cs : List Nat) : n ∉ avoid →
      g.children n = .ok cs → c ∈ cs → Reach g avoid c m → Reach g avoid n m

/-- JSON values as produced by `serde_json`.  The opaque `Rewrites` blob is
represented by an arbitrary `Json` value. -/
inductive Json : Type
  | str : String → Json
  | arr : List Json → Json
  | obj : List (String × Json) → Json

/-- Comma-separated join, as in `serde_json` list/object rendering. -/
def commaJoin : List String → String
  | [] => ""
  | [s] => s
  | s :: rest => s ++ "," ++ commaJoin rest

/-- String-body escaping of `serde_json` (quote and backslash; the payloads
this component renders contain no control characters). -/
def escapeChars : List Char → List Char
  | [] => []
  | c :: rest =>
    if c = '"' ∨ c = '\\' then '\\' :: c :: escapeChars rest
    else c :: escapeChars rest

/-- `serde_json::to_string` on the embedded `Json` values. -/
def Json.render : Json → String
  | .str s => "\"" ++ String.mk (escapeChars s.data) ++ "\""
  | .arr xs => "[" ++ commaJoin (xs.attach.map fun x => Json.render x.1) ++ "]"
  | .obj fs =>
    "\x7b" ++
      commaJoin (fs.attach.map fun f =>
        "\"" ++ String.mk (escapeChars f.1.1.data) ++ "\":" ++
          Json.render f.1.2) ++ "\x7d"
decreasing_by
  · obtain ⟨j, hmem⟩ := x
    have h := List.sizeOf_lt_of_mem hmem
    simp only [Json.arr.sizeOf_spec]
    omega
  · obtain ⟨⟨a, b⟩, hmem⟩ := f
    have h := List.sizeOf_lt_of_mem hmem
    simp only [Prod.mk.sizeOf_spec] at h
    simp only [Json.obj.sizeOf_spec]
    omega

/-- Mirror of the Rust struct `BuildManifest` (manifest.rs:141-150). -/
structure BuildManifest where
  rewrites : Json
  sortedPages : List String
  routes : List (String × List String)

/-- The `serde` `rename_all = "camelCase"` rule applied to a snake_case field
name: drop each underscore and uppercase the following character. -/
def camelCaseChars : List Char → List Char
  | [] => []
  | '_' :: c :: rest => c.toUpper :: camelCaseChars rest
  | c :: rest => c :: camelCaseChars rest

/-- Serialization of `BuildManifest` as dictated by its serde attributes
(manifest.rs:141-150): field order `rewrites`, `sorted_pages`, `routes`;
`rewrites` renamed to the literal `"__rewrites"`; `sorted_pages` camel-cased;
`routes` flattened into the top-level object (`#[serde(flatten)]`). -/
def serializeBuildManifest (m : BuildManifest) : List (String × Json) :=
  ("__rewrites", m.rewrites)
    :: (String.mk (camelCaseChars "sorted_pages".data),
        Json.arr (m.sortedPages.map Json.str))
    :: m.routes.map fun pr => (pr.1, Json.arr (pr.2.map Json.str))

/-- The per-page chunk lists built in `create_build_manifest`
(manifest.rs:110-121): each page maps to the single chunk
`"_next/static/chunks/pages" + asset_path(pathname, ".js")`. -/
def buildManifestRoutes (assetPath : String → String → String)
    (pages : List String) : List (String × List String) :=
  pages.map fun pathname =>
    (pathname, ["_next/static/chunks/pages" ++ assetPath pathname ".js"])

/-- The `BuildManifest` value assembled in `create_build_manifest`
(manifest.rs:123-127). -/
def createBuildManifestObj (assetPath : String → String → String)
    (rewrites : Json) (sortedPages : List String) : BuildManifest :=
  { rewrites := rewrites
    sortedPages := sortedPages
    routes := buildManifestRoutes assetPath sortedPages }

/-- The embedded `DevManifestContentSource` plus its external collaborators.

`assetPath` — Modelled from the spec: `get_asset_path_from_pathname` lives in
`util.rs`, which is not among the embedded sources; per the spec it is an
opaque pure function `(pathname, extension) -> asset sub-path` whose output
is embedded, not interpreted.

`template` — Modelled from the spec: the embedded static asset
`entry/manifest/buildManifest.js` returned by `next_js_file`; `none` models a
missing embedded file, which is a fatal packaging error. -/
structure DevManifestContentSource where
  g : ProviderGraph
  pageRoots : List Nat
  fuel : Nat
  rewrites : Json
  assetPath : String → String → String
  template : Option String

/-- `DevManifestContentSource::create_build_manifest` (manifest.rs:105-138):
build the manifest object over `find_pages` and substitute its serialization
for the `$$MANIFEST$$` marker of the embedded template. -/
def createBuildManifest (src : DevManifestContentSource) :
    Except String String :=
  match findPages src.g src.pageRoots src.fuel with
  | .error e => .error e
  | .ok sortedPages =>
    match src.template with
    | none => .error "embedded buildManifest file missing"
    | some t =>
      .ok (t.replace "$$MANIFEST$$"
        (Json.render (Json.obj (serializeBuildManifest
          (createBuildManifestObj src.assetPath src.rewrites sortedPages)))))

/-- Content types used by the adapter (`APPLICATION_JSON`,
`APPLICATION_JAVASCRIPT_UTF_8`). -/
inductive ContentType : Type
  | json : ContentType
  | javascript : ContentType
deriving DecidableEq

/-- A `File` with its content type. -/
structure JFile where
  content : String
  contentType : ContentType
deriving DecidableEq

/-- `ContentSourceResult`: either a static response or not-found. -/
inductive ContentSourceResult : Type
  | notFound : ContentSourceResult
  | exact : JFile → ContentSourceResult
deriving DecidableEq

/-- `ContentSource::get` for `DevManifestContentSource`
(manifest.rs:154-188): dispatch on the request path, serving the pages
manifest, the build manifest, the constant middleware manifest stub, or
not-found. -/
def ContentSource.get (src : DevManifestContentSource) (path : String) :
    Except String ContentSourceResult :=
  match path with
  | "_next/static/development/_devPagesManifest.json" =>
    match findRoutes src.g src.pageRoots src.fuel with
    | .error e => .error e
    | .ok pages =>
      .ok (.exact ⟨Json.render (Json.obj [("pages", Json.arr (pages.map Json.str))]),
        .json⟩)
  | "_next/static/development/_buildManifest.js" =>
    match createBuildManifest src with
    | .error e => .error e
    | .ok bm => .ok (.exact ⟨bm, .javascript⟩)
  | "_next/static/development/_devMiddlewareManifest.json" =>
    .ok (.exact ⟨"[]", .json⟩)
  | _ => .ok .notFound

/-- `Introspectable::ty` (manifest.rs:193-196). -/
def introspectTy : String := "dev manifest source"

/-- `Introspectable::details` (manifest.rs:198-204). -/
def introspectDetails : String :=
  "provides _devPagesManifest.json, _buildManifest.js and _devMiddlewareManifest.json."

/-- Concrete provider graph whose single leaf exposes the route
`"/apifoo"`. -/
def apiFooGraph : ProviderGraph :=
  { children := fun _ => .ok []
    pathname := fun n => if n = 0 then .ok (some "/apifoo") else .ok none }

/-- Concrete provider graph exposing the routes `"/api/x"` and `"/home"`. -/
def pagesExampleGraph : ProviderGraph :=
  { children := fun n => if n = 0 then .ok [1, 2] else .ok []
    pathname := fun n =>
      if n = 1 then .ok (some "/api/x")
      else if n = 2 then .ok (some "/home")
      else .ok none }

/-- Concrete provider graph exposing the routes `"/[id]"`, `"/about"` and
`"/[[...rest]]"`. -/
def sortExampleGraph : ProviderGraph :=
  { children := fun n => if n = 0 then .ok [1, 2, 3] else .ok []
    pathname := fun n =>
      if n = 1 then .ok (some "/[id]")
      else if n = 2 then .ok (some "/about")
      else if n = 3 then .ok (some "/[[...rest]]")
      else .ok none }

/-- Concrete provider graph whose root fails to resolve its children. -/
def childErrGraph : ProviderGraph :=
  { children := fun _ => .error "child resolution failed"
    pathname := fun _ => .ok none }

/-- Concrete provider graph whose root fails to resolve its pathname. -/
def pathErrGraph : ProviderGraph :=
  { children := fun _ => .ok []
    pathname := fun _ => .error "pathname resolution failed" }

/-- A concrete `DevManifestContentSource` over an empty provider graph. -/
def emptySource : DevManifestContentSource :=
  { g := { children := fun _ => .ok [], pathname := fun _ => .ok none }
    pageRoots := []
    fuel := 0
    rewrites := Json.arr []
    assetPath := fun _ _ => ""
    template := some "self.__BUILD_MANIFEST = $$MANIFEST$$" }

/-! ## Theorems -/

theorem cmpChar_eq_iff (a b : Char) : cmpChar a b = .eq ↔ a = b := by
  unfold cmpChar
  split_ifs with h1 h2
  · simp only [reduceCtorEq, false_iff]
    exact fun hab => absurd (hab ▸ h1) (lt_irrefl b)
  · simp [h2]
  · simp [h2]

theorem cmpChar_swap (a b : Char) : (cmpChar a b).swap = cmpChar b a := by
  unfold cmpChar
  rcases lt_trichotomy a b with h | h | h
  · rw [if_pos h, if_neg (asymm h), if_neg (ne_of_gt h)]
    rfl
  · subst h
    rw [if_neg (lt_irrefl a), if_pos rfl]
    rfl
  · rw [if_neg (asymm h), if_neg (ne_of_gt h), if_pos h]
    rfl

theorem cmpChar_lt_trans {a b c : Char} (h1 : cmpChar a b = .lt)
    (h2 : cmpChar b c = .lt) : cmpChar a c = .lt := by
  have hab : a < b := by
    by_contra hc
    simp [cmpChar, hc] at h1
  have hbc : b < c := by
    by_contra hc
    simp [cmpChar, hc] at h2
  simp [cmpChar, lt_trans hab hbc]

theorem lexCmp_eq_iff {α : Type _} {cmp : α → α → Ordering}
    (heq : ∀ a b, cmp a b = .eq ↔ a = b) :
    ∀ xs ys : List α, lexCmp cmp xs ys = .eq ↔ xs = ys
  | [], [] => by simp [lexCmp]
  | [], _ :: _ => by simp [lexCmp]
  | _ :: _, [] => by simp [lexCmp]
  | x :: xs, y :: ys => by
    simp only [lexCmp, Ordering.then_eq_eq, heq, List.cons.injEq,
      lexCmp_eq_iff heq xs ys]

theorem lexCmp_swap {α : Type _} {cmp : α → α → Ordering}
    (hswap : ∀ a b, (cmp a b).swap = cmp b a) :
    ∀ xs ys : List α, (lexCmp cmp xs ys).swap = lexCmp cmp ys xs
  | [], [] => rfl
  | [], _ :: _ => rfl
  | _ :: _, [] => rfl
  | x :: xs, y :: ys => by
    simp only [lexCmp, Ordering.swap_then, hswap, lexCmp_swap hswap xs ys]

theorem lexCmp_lt_trans {α : Type _} {cmp : α → α → Ordering}
    (heq : ∀ a b, cmp a b = .eq ↔ a = b)
    (htrans : ∀ a b c, cmp a b = .lt → cmp b c = .lt → cmp a c = .lt) :
    ∀ xs ys zs : List α, lexCmp cmp xs ys = .lt → lexCmp cmp ys zs = .lt →
      lexCmp cmp xs zs = .lt
  | [], [], _, h1, _ => by simp [lexCmp] at h1
  | [], _ :: _, [], _, h2 => by simp [lexCmp] at h2
  | [], _ :: _, _ :: _, _, _ => rfl
  | _ :: _, [], _, h1, _ => by simp [lexCmp] at h1
  | _ :: _, _ :: _, [], _, h2 => by simp [lexCmp] at h2
  | x :: xs, y :: ys, z :: zs, h1, h2 => by
    simp only [lexCmp, Ordering.then_eq_lt] at h1 h2 ⊢
    rcases h1 with h1 | ⟨h1e, h1r⟩
    · rcases h2 with h2 | ⟨h2e, h2r⟩
      · exact Or.inl (htrans x y z h1 h2)
      · exact Or.inl ((heq y z).mp h2e ▸ h1)
    · rcases h2 with h2 | ⟨h2e, h2r⟩
      · exact Or.inl ((heq x y).mp h1e ▸ h2)
      · refine Or.inr ⟨(heq x z).mpr ?_, lexCmp_lt_trans heq htrans xs ys zs h1r h2r⟩
        rw [(heq x y).mp h1e, (heq y z).mp h2e]

theorem cmpPSK_eq_iff (a b : PageSortKey) : cmpPSK a b = .eq ↔ a = b := by
  cases a <;> cases b <;>
    simp [cmpPSK, lexCmp_eq_iff cmpChar_eq_iff]

theorem cmpPSK_swap (a b : PageSortKey) : (cmpPSK a b).swap = cmpPSK b a := by
  cases a <;> cases b <;>
    first
    | rfl
    | exact lexCmp_swap cmpChar_swap _ _

theorem cmpPSK_lt_trans (a b c : PageSortKey) (h1 : cmpPSK a b = .lt)
    (h2 : cmpPSK b c = .lt) : cmpPSK a c = .lt := by
  cases a <;> cases b <;> cases c <;>
    first
    | (exact lexCmp_lt_trans cmpChar_eq_iff (fun _ _ _ => cmpChar_lt_trans)
        _ _ _ h1 h2)
    | simp_all [cmpPSK]

theorem cmpRouteKeys_eq_iff (a b : String) :
    cmpRouteKeys a b = .eq ↔ routeKey a = routeKey b :=
  lexCmp_eq_iff cmpPSK_eq_iff _ _

theorem cmpRouteKeys_swap (a b : String) :
    (cmpRouteKeys a b).swap = cmpRouteKeys b a :=
  lexCmp_swap cmpPSK_swap _ _

theorem cmpRouteKeys_lt_trans {a b c : String} (h1 : cmpRouteKeys a b = .lt)
    (h2 : cmpRouteKeys b c = .lt) : cmpRouteKeys a c = .lt :=
  lexCmp_lt_trans cmpPSK_eq_iff cmpPSK_lt_trans _ _ _ h1 h2

instance keyLeTotal : IsTotal String keyLe := by
  constructor
  intro a b
  by_cases h : cmpRouteKeys a b = Ordering.gt
  · right
    intro hba
    have hs := cmpRouteKeys_swap a b
    rw [h, hba] at hs
    cases hs
  · left
    exact h

instance keyLeTrans : IsTrans String keyLe := by
  constructor
  intro a b c hab hbc
  unfold keyLe at *
  intro hac
  cases h1 : cmpRouteKeys a b with
  | gt => exact hab h1
  | eq =>
    cases h2 : cmpRouteKeys b c with
    | gt => exact hbc h2
    | eq =>
      have hk : routeKey a = routeKey b := (cmpRouteKeys_eq_iff a b).mp h1
      have : cmpRouteKeys a c = cmpRouteKeys b c := by
        unfold cmpRouteKeys
        rw [hk]
      rw [this, h2] at hac
      cases hac
    | lt =>
      have hk : routeKey a = routeKey b := (cmpRouteKeys_eq_iff a b).mp h1
      have : cmpRouteKeys a c = cmpRouteKeys b c := by
        unfold cmpRouteKeys
        rw [hk]
      rw [this, h2] at hac
      cases hac
  | lt =>
    cases h2 : cmpRouteKeys b c with
    | gt => exact hbc h2
    | eq =>
      have hk : routeKey b = routeKey c := (cmpRouteKeys_eq_iff b c).mp h2
      have : cmpRouteKeys a c = cmpRouteKeys a b := by
        unfold cmpRouteKeys
        rw [← hk]
      rw [this, h1] at hac
      cases hac
    | lt =>
      rw [cmpRouteKeys_lt_trans h1 h2] at hac
      cases hac

theorem dedupFrom_sublist {α : Type _} [DecidableEq α] :
    ∀ (l : List α) (a : α), List.Sublist (dedupFrom a l) l
  | [], _ => List.nil_sublist []
  | b :: l, a => by
    rw [dedupFrom]
    split_ifs with h
    · exact (dedupFrom_sublist l a).trans (List.sublist_cons_self b l)
    · exact (dedupFrom_sublist l b).cons₂ b

theorem dedupFrom_chain' {α : Type _} [DecidableEq α] :
    ∀ (l : List α) (a : α), List.Chain' (· ≠ ·) (a :: dedupFrom a l)
  | [], a => List.chain'_singleton a
  | b :: l, a => by
    rw [dedupFrom]
    split_ifs with h
    · exact dedupFrom_chain' l a
    · exact List.chain'_cons.mpr ⟨h, dedupFrom_chain' l b⟩

theorem dedupFrom_mem {α : Type _} [DecidableEq α] :
    ∀ (l : List α) (a x : α), x ∈ a :: dedupFrom a l ↔ x ∈ a :: l
  | [], a, x => Iff.rfl
  | b :: l, a, x => by
    rw [dedupFrom]
    split_ifs with h
    · subst h
      rw [dedupFrom_mem l a x]
      simp [List.mem_cons]
    · have hb := dedupFrom_mem l b x
      simp only [List.mem_cons] at hb ⊢
      tauto

theorem dedupFrom_of_chain' {α : Type _} [DecidableEq α] :
    ∀ (l : List α) (a : α), List.Chain' (· ≠ ·) (a :: l) → dedupFrom a l = l
  | [], _, _ => rfl
  | b :: l, a, h => by
    have hab : a ≠ b := (List.chain'_cons.mp h).1
    rw [dedupFrom, if_neg hab,
      dedupFrom_of_chain' l b (List.chain'_cons.mp h).2]

theorem rustDedup_sublist {α : Type _} [DecidableEq α] :
    ∀ l : List α, List.Sublist (rustDedup l) l
  | [] => List.nil_sublist []
  | a :: l => (dedupFrom_sublist l a).cons₂ a

theorem rustDedup_chain' {α : Type _} [DecidableEq α] :
    ∀ l : List α, List.Chain' (· ≠ ·) (rustDedup l)
  | [] => List.chain'_nil
  | a :: l => dedupFrom_chain' l a

theorem rustDedup_mem {α : Type _} [DecidableEq α] :
    ∀ (l : List α) (x : α), x ∈ rustDedup l ↔ x ∈ l
  | [], _ => Iff.rfl
  | a :: l, x => dedupFrom_mem l a x

theorem rustDedup_of_chain' {α : Type _} [DecidableEq α] :
    ∀ l : List α, List.Chain' (· ≠ ·) l → rustDedup l = l
  | [], _ => rfl
  | a :: l, h => by
    rw [rustDedup, dedupFrom_of_chain' l a h]

theorem sortRoutes_sorted (l : List String) :
    List.Sorted keyLe (sortRoutes l) :=
  List.sorted_insertionSort keyLe l

theorem sortRoutes_perm (l : List String) : List.Perm (sortRoutes l) l :=
  List.perm_insertionSort keyLe l

theorem orderAndDedup_sorted (l : List String) :
    List.Sorted keyLe (orderAndDedup l) :=
  List.Pairwise.sublist (rustDedup_sublist _) (sortRoutes_sorted l)

theorem orderAndDedup_chain' (l : List String) :
    List.Chain' (· ≠ ·) (orderAndDedup l) :=
  rustDedup_chain' _

theorem orderAndDedup_mem (l : List String) (x : String) :
    x ∈ orderAndDedup l ↔ x ∈ l :=
  (rustDedup_mem _ x).trans (sortRoutes_perm l).mem_iff

theorem orderAndDedup_idem (l : List String) :
    orderAndDedup (orderAndDedup l) = orderAndDedup l := by
  unfold orderAndDedup
  rw [show sortRoutes (rustDedup (sortRoutes l)) = rustDedup (sortRoutes l) from
    List.Sorted.insertionSort_eq (orderAndDedup_sorted l)]
  exact rustDedup_of_chain' _ (rustDedup_chain' _)

theorem Reach.not_mem_avoid {g : ProviderGraph} {avoid : List Nat}
    {x b : Nat} (h : Reach g avoid x b) : x ∉ avoid :=
  match h with
  | .refl _ _ hn => hn
  | .step _ _ _ _ _ hn _ _ _ => hn

/-- Pushing a freshly-visited node `n` (whose children resolved to `cs`) into
the avoid set: a path from `x` to `b` either avoids `n` as well, or must pass
through `n`, in which case some child of `n` still reaches `b`. -/
theorem Reach.avoid_cons {g : ProviderGraph} {n : Nat} {cs : List Nat}
    {avoid : List Nat} {x b : Nat}
    (hn : g.children n = .ok cs) (h : Reach g avoid x b) : n ≠ b →
    Reach g (n :: avoid) x b ∨ ∃ c ∈ cs, Reach g (n :: avoid) c b := by
  induction h with
  | refl m hm =>
    intro hnb
    left
    refine .refl _ m ?_
    intro hmem
    rcases List.mem_cons.mp hmem with h | h
    · exact hnb h.symm
    · exact hm h
  | step y c m cs' hy hchild hcmem hr ih =>
    intro hnb
    by_cases hyn : y = n
    · subst hyn
      rw [hn] at hchild
      injection hchild with hcseq
      subst hcseq
      rcases ih hnb with ihx | ⟨c', h1, h2⟩
      · exact Or.inr ⟨c, hcmem, ihx⟩
      · exact Or.inr ⟨c', h1, h2⟩
    · rcases ih hnb with ihx | ⟨c', h1, h2⟩
      · refine Or.inl (.step _ y c m cs' ?_ hchild hcmem ihx)
        intro hmem
        rcases List.mem_cons.mp hmem with h | h
        · exact hyn h
        · exact hy h
      · exact Or.inr ⟨c', h1, h2⟩

theorem visit_ok_subset (g : ProviderGraph) :
    ∀ (fuel : Nat) (visited frontier res : List Nat),
      visit g fuel visited frontier = .ok res → visited ⊆ res := by
  intro fuel
  induction fuel with
  | zero =>
    intro visited frontier res h
    cases frontier with
    | nil =>
      simp only [visit] at h
      injection h with h
      subst h
      exact fun a ha => ha
    | cons n f => simp [visit] at h
  | succ fuel ih =>
    intro visited frontier res h
    cases frontier with
    | nil =>
      simp only [visit] at h
      injection h with h
      subst h
      exact fun a ha => ha
    | cons n f =>
      simp only [visit] at h
      by_cases hvis : n ∈ visited
      · rw [if_pos hvis] at h
        exact ih visited f res h
      · rw [if_neg hvis] at h
        cases hcn : g.children n with
        | error e' => rw [hcn] at h; cases h
        | ok cs =>
          rw [hcn] at h
          exact fun a ha => ih (n :: visited) (f ++ cs) res h
            (List.mem_cons_of_mem n ha)

theorem visit_no_ok_of_children_err (g : ProviderGraph) {bad : Nat} {e : String}
    (hbad : g.children bad = .error e) :
    ∀ (fuel : Nat) (visited frontier : List Nat),
      (∃ x ∈ frontier, Reach g visited x bad) →
      ∀ res, visit g fuel visited frontier ≠ .ok res := by
  intro fuel
  induction fuel with
  | zero =>
    intro visited frontier hw res h
    rcases hw with ⟨x, hx, hr⟩
    cases frontier with
    | nil => cases hx
    | cons n f => simp [visit] at h
  | succ fuel ih =>
    intro visited frontier hw res h
    rcases hw with ⟨x, hx, hr⟩
    cases frontier with
    | nil => cases hx
    | cons n f =>
      simp only [visit] at h
      by_cases hvis : n ∈ visited
      · rw [if_pos hvis] at h
        have hxf : x ∈ f := by
          rcases List.mem_cons.mp hx with h' | h'
          · exact absurd (h' ▸ hvis) hr.not_mem_avoid
          · exact h'
        exact ih visited f ⟨x, hxf, hr⟩ res h
      · rw [if_neg hvis] at h
        cases hcn : g.children n with
        | error e' => rw [hcn] at h; cases h
        | ok cs =>
          rw [hcn] at h
          have hnbad : n ≠ bad := fun hh => by rw [hh, hbad] at hcn; cases hcn
          rcases List.mem_cons.mp hx with h' | h'
          · subst h'
            rcases Reach.avoid_cons hcn hr hnbad with hl | ⟨c, hc1, hc2⟩
            · exact absurd (List.mem_cons_self x visited) hl.not_mem_avoid
            · exact ih (x :: visited) (f ++ cs)
                ⟨c, List.mem_append_right f hc1, hc2⟩ res h
          · rcases Reach.avoid_cons hcn hr hnbad with hl | ⟨c, hc1, hc2⟩
            · exact ih (n :: visited) (f ++ cs)
                ⟨x, List.mem_append_left cs h', hl⟩ res h
            · exact ih (n :: visited) (f ++ cs)
                ⟨c, List.mem_append_right f hc1, hc2⟩ res h

theorem visit_ok_mem (g : ProviderGraph) {bad : Nat} :
    ∀ (fuel : Nat) (visited frontier res : List Nat),
      visit g fuel visited frontier = .ok res →
      (∃ x ∈ frontier, Reach g visited x bad) → bad ∈ res := by
  intro fuel
  induction fuel with
  | zero =>
    intro visited frontier res h hw
    rcases hw with ⟨x, hx, hr⟩
    cases frontier with
    | nil => cases hx
    | cons n f => simp [visit] at h
  | succ fuel ih =>
    intro visited frontier res h hw
    rcases hw with ⟨x, hx, hr⟩
    cases frontier with
    | nil => cases hx
    | cons n f =>
      simp only [visit] at h
      by_cases hvis : n ∈ visited
      · rw [if_pos hvis] at h
        have hxf : x ∈ f := by
          rcases List.mem_cons.mp hx with h' | h'
          · exact absurd (h' ▸ hvis) hr.not_mem_avoid
          · exact h'
        exact ih visited f res h ⟨x, hxf, hr⟩
      · rw [if_neg hvis] at h
        cases hcn : g.children n with
        | error e' => rw [hcn] at h; cases h
        | ok cs =>
          rw [hcn] at h
          by_cases hnbad : n = bad
          · subst hnbad
            exact visit_ok_subset g fuel (n :: visited) (f ++ cs) res h
              (List.mem_cons_self n visited)
          · rcases List.mem_cons.mp hx with h' | h'
            · subst h'
              rcases Reach.avoid_cons hcn hr hnbad with hl | ⟨c, hc1, hc2⟩
              · exact absurd (List.mem_cons_self x visited) hl.not_mem_avoid
              · exact ih (x :: visited) (f ++ cs) res h
                  ⟨c, List.mem_append_right f hc1, hc2⟩
            · rcases Reach.avoid_cons hcn hr hnbad with hl | ⟨c, hc1, hc2⟩
              · exact ih (n :: visited) (f ++ cs) res h
                  ⟨x, List.mem_append_left cs h', hl⟩
              · exact ih (n :: visited) (f ++ cs) res h
                  ⟨c, List.mem_append_right f hc1, hc2⟩

theorem mapExcept_no_ok {f : Nat → Except String (Option String)} {bad : Nat}
    {e : String} (hf : f bad = .error e) :
    ∀ l : List Nat, bad ∈ l → ∀ res, mapExcept f l ≠ .ok res
  | [], hmem, _, _ => absurd hmem (List.not_mem_nil bad)
  | a :: l, hmem, res, h => by
    simp only [mapExcept] at h
    cases hfa : f a with
    | error e' => rw [hfa] at h; cases h
    | ok b =>
      rw [hfa] at h
      have hba : bad ≠ a := fun hh => by rw [hh, hfa] at hf; cases hf
      have hml : bad ∈ l := by
        rcases List.mem_cons.mp hmem with h' | h'
        · exact absurd h' hba
        · exact h'
      cases hrec : mapExcept f l with
      | error e2 => rw [hrec] at h; cases h
      | ok bs => exact mapExcept_no_ok hf l hml bs hrec

/-- Error propagation in `find_routes` (manifest.rs:68-75): a failing
`get_children` resolution anywhere in the reachable graph fails the whole
discovery. -/
theorem findRoutes_error_of_children_err (g : ProviderGraph)
    (roots : List Nat) (fuel : Nat) {bad : Nat} {e : String}
    (hre : ∃ x ∈ roots, Reach g [] x bad)
    (hbad : g.children bad = .error e) :
    ∃ e', findRoutes g roots fuel = .error e' := by
  unfold findRoutes
  cases hv : visit g fuel [] roots with
  | error e' => exact ⟨e', rfl⟩
  | ok nodes =>
    exact absurd hv (visit_no_ok_of_children_err g hbad fuel [] roots hre nodes)

/-- Error propagation in `find_routes` (manifest.rs:72-75): a failing
`content_source_to_pathname` resolution for any discovered node fails the
whole discovery. -/
theorem findRoutes_error_of_pathname_err (g : ProviderGraph)
    (roots : List Nat) (fuel : Nat) {bad : Nat} {e : String}
    (hre : ∃ x ∈ roots, Reach g [] x bad)
    (hbad : g.pathname bad = .error e) :
    ∃ e', findRoutes g roots fuel = .error e' := by
  unfold findRoutes
  cases hv : visit g fuel [] roots with
  | error e' => exact ⟨e', rfl⟩
  | ok nodes =>
    have hmem : bad ∈ nodes := visit_ok_mem g fuel [] roots nodes hv hre
    cases hm : mapExcept g.pathname nodes with
    | error e2 => exact ⟨e2, by simp only [hm]⟩
    | ok opts => exact absurd hm (mapExcept_no_ok hbad nodes hmem opts)

/-- A proper prefix of a key sequence compares `lt` (for a comparator that is
reflexively `eq`). -/
theorem lexCmp_append_cons {α : Type _} {cmp : α → α → Ordering}
    (hrefl : ∀ a, cmp a a = .eq) :
    ∀ (k : List α) (x : α) (ex : List α), lexCmp cmp k (k ++ x :: ex) = .lt
  | [], _, _ => rfl
  | a :: k, x, ex => by
    simp only [List.cons_append, lexCmp, hrefl]
    exact lexCmp_append_cons hrefl k x ex

/-- `find_routes` yields a key-sorted list whenever it succeeds. -/
theorem findRoutes_ok_sorted (g : ProviderGraph) (roots : List Nat)
    (fuel : Nat) (routes : List String)
    (h : findRoutes g roots fuel = .ok routes) : List.Sorted keyLe routes := by
  unfold findRoutes at h
  split at h
  · cases h
  · split at h
    · cases h
    · injection h with h
      subst h
      exact orderAndDedup_sorted _

/-- **C1**: `find_routes` sorts its route list ascending by the per-segment
key: `Static` sorts below `Slug`, which sorts below `CatchAll`; two `Static`
segments compare lexicographically by their text; two slug-shaped (resp.
catch-all-shaped) segments map to keys that compare equal regardless of inner
text; keys are compared segment-wise left to right, a proper prefix sorting
first.  In particular the routes `["/[id]", "/about", "/[[...rest]]"]`
produce exactly `["/about", "/[id]", "/[[...rest]]"]`. -/
theorem find_routes_sort_spec :
    (∀ l : List String, List.Sorted keyLe (orderAndDedup l))
    ∧ (∀ (g : ProviderGraph) (roots : List Nat) (fuel : Nat)
        (routes : List String), findRoutes g roots fuel = .ok routes →
        List.Sorted keyLe routes)
    ∧ (∀ l : List String, List.Perm (sortRoutes l) l)
    ∧ (∀ s, cmpPSK (.Static s) .Slug = .lt)
    ∧ cmpPSK .Slug .CatchAll = .lt
    ∧ (∀ s, cmpPSK (.Static s) .CatchAll = .lt)
    ∧ (∀ a b, cmpPSK (.Static a) (.Static b) = lexCmp cmpChar a b)
    ∧ (∀ s t : String, pageSortKeyOfSeg s = .Slug → pageSortKeyOfSeg t = .Slug →
        cmpPSK (pageSortKeyOfSeg s) (pageSortKeyOfSeg t) = .eq)
    ∧ (∀ s t : String, pageSortKeyOfSeg s = .CatchAll →
        pageSortKeyOfSeg t = .CatchAll →
        cmpPSK (pageSortKeyOfSeg s) (pageSortKeyOfSeg t) = .eq)
    ∧ (∀ (k : List PageSortKey) (x : PageSortKey) (ex : List PageSortKey),
        lexCmp cmpPSK k (k ++ x :: ex) = .lt)
    ∧ findRoutes sortExampleGraph [0] 4 = .ok ["/about", "/[id]", "/[[...rest]]"]
    ∧ orderAndDedup ["/[id]", "/about", "/[[...rest]]"] =
        ["/about", "/[id]", "/[[...rest]]"] := by
  refine ⟨orderAndDedup_sorted, findRoutes_ok_sorted, sortRoutes_perm,
    fun _ => rfl, rfl, fun _ => rfl, fun _ _ => rfl, ?_, ?_,
    lexCmp_append_cons (fun a => (cmpPSK_eq_iff a a).mpr rfl), rfl, by decide⟩
  · intro s t hs ht
    rw [hs, ht]
    rfl
  · intro s t hs ht
    rw [hs, ht]
    rfl

theorem find_routes_sort_spec_witness :
    (cmpPSK (pageSortKeyOfSeg "[id]") (pageSortKeyOfSeg "[x]") = .eq)
    ∧ (cmpPSK (pageSortKeyOfSeg "[[...a]]") (pageSortKeyOfSeg "[[...b]]") = .eq)
    ∧ List.Sorted keyLe ["/about", "/[id]", "/[[...rest]]"] :=
  ⟨find_routes_sort_spec.2.2.2.2.2.2.2.1 "[id]" "[x]" (by decide) (by decide),
   find_routes_sort_spec.2.2.2.2.2.2.2.2.1 "[[...a]]" "[[...b]]"
     (by decide) (by decide),
   find_routes_sort_spec.2.1 sortExampleGraph [0] 4 _ rfl⟩

/-- **C2** fails on the code: `Vec::dedup` only removes *adjacent*
duplicates, and the stable sort keeps equal-key routes in input order, so the
duplicate `"/a/[id]"` separated by the equal-key `"/a/[x]"` survives: the
output contains `"/a/[id]"` twice. -/
theorem find_routes_dedup_counterexample :
    orderAndDedup ["/a/[id]", "/a/[x]", "/a/[id]"] =
      ["/a/[id]", "/a/[x]", "/a/[id]"]
    ∧ ¬((orderAndDedup ["/a/[id]", "/a/[x]", "/a/[id]"]).count "/a/[id]" ≤ 1) :=
  ⟨by decide, by decide⟩

/-- **C2 (amended)**: after the sort, the dedup step removes *consecutive*
exact-duplicate strings, preserving the first occurrence of each run: the
result has no two adjacent equal strings, keeps exactly the elements of the
input (as a sublist of the sorted sequence), and
`["/a", "/a", "/b"]` yields `["/a", "/b"]`; exact duplicates separated by a
distinct route of equal sort key survive. -/
theorem find_routes_dedup_adjacent :
    (∀ l : List String, List.Chain' (· ≠ ·) (orderAndDedup l))
    ∧ (∀ (l : List String) (x : String), x ∈ orderAndDedup l ↔ x ∈ l)
    ∧ (∀ l : List String, List.Sublist (orderAndDedup l) (sortRoutes l))
    ∧ orderAndDedup ["/a", "/a", "/b"] = ["/a", "/b"] :=
  ⟨orderAndDedup_chain', orderAndDedup_mem, fun _ => rustDedup_sublist _,
    by decide⟩

/-- **C3** fails on the code: `find_pages` filters with the *string-prefix*
test `!s.starts_with("/api")` (manifest.rs:97), so the route `"/apifoo"` —
whose first `/`-delimited segment is `"apifoo"`, not `"api"` — is
nevertheless excluded, where the claim says it must be retained. -/
theorem find_pages_counterexample :
    findRoutes apiFooGraph [0] 1 = .ok ["/apifoo"]
    ∧ splitSeg "/apifoo".data = [[], "apifoo".data]
    ∧ "apifoo" ≠ "api"
    ∧ findPages apiFooGraph [0] 1 = .ok [] :=
  ⟨rfl, by decide, by decide, rfl⟩

/-- **C3 (amended)**: `find_pages` returns exactly the routes of
`find_routes` whose string does not start with the character prefix `"/api"`,
in the same relative (sorted) order — so a route such as `"/apifoo"` is
excluded as well; input routes `["/api/x", "/home"]` yield pages
`["/home"]`. -/
theorem find_pages_filter :
    (∀ (g : ProviderGraph) (roots : List Nat) (fuel : Nat)
        (routes : List String),
      findRoutes g roots fuel = .ok routes →
      findPages g roots fuel =
        .ok (routes.filter fun s => !("/api".data.isPrefixOf s.data)))
    ∧ findRoutes pagesExampleGraph [0] 3 = .ok ["/api/x", "/home"]
    ∧ findPages pagesExampleGraph [0] 3 = .ok ["/home"] := by
  refine ⟨?_, rfl, rfl⟩
  intro g roots fuel routes h
  unfold findPages
  rw [h]

theorem find_pages_filter_witness :
    findPages pagesExampleGraph [0] 3 =
      .ok (["/api/x", "/home"].filter fun s =>
        !("/api".data.isPrefixOf s.data)) :=
  find_pages_filter.1 pagesExampleGraph [0] 3 ["/api/x", "/home"] rfl

/-- **C5**: if resolving the children of any single reachable node, or the
pathname of any single reachable node, fails, then `find_routes` returns an
error rather than a partial route list; no per-node skipping occurs. -/
theorem find_routes_fatal_on_node_failure :
    (∀ (g : ProviderGraph) (roots : List Nat) (fuel : Nat) (bad : Nat)
        (e : String), (∃ x ∈ roots, Reach g [] x bad) →
      g.children bad = .error e → ∃ e', findRoutes g roots fuel = .error e')
    ∧ (∀ (g : ProviderGraph) (roots : List Nat) (fuel : Nat) (bad : Nat)
        (e : String), (∃ x ∈ roots, Reach g [] x bad) →
      g.pathname bad = .error e → ∃ e', findRoutes g roots fuel = .error e') :=
  ⟨fun g roots fuel _ _ hre hbad =>
    findRoutes_error_of_children_err g roots fuel hre hbad,
   fun g roots fuel _ _ hre hbad =>
    findRoutes_error_of_pathname_err g roots fuel hre hbad⟩

theorem find_routes_fatal_on_node_failure_witness :
    (∃ e', findRoutes childErrGraph [0] 1 = .error e')
    ∧ (∃ e', findRoutes pathErrGraph [0] 1 = .error e') :=
  ⟨find_routes_fatal_on_node_failure.1 childErrGraph [0] 1 0
      "child resolution failed" ⟨0, by decide, .refl [] 0 (by decide)⟩ rfl,
   find_routes_fatal_on_node_failure.2 pathErrGraph [0] 1 0
      "pathname resolution failed" ⟨0, by decide, .refl [] 0 (by decide)⟩ rfl⟩

/-- **C6**: for every request path other than the three well-known manifest
paths, the adapter's `get` returns a not-found result, never a manifest
payload. -/
theorem get_unknown_path_not_found :
    ∀ (src : DevManifestContentSource) (path : String),
      path ≠ "_next/static/development/_devPagesManifest.json" →
      path ≠ "_next/static/development/_buildManifest.js" →
      path ≠ "_next/static/development/_devMiddlewareManifest.json" →
      ContentSource.get src path = .ok .notFound := by
  intro src path h1 h2 h3
  unfold ContentSource.get
  split
  · exact absurd rfl h1
  · exact absurd rfl h2
  · exact absurd rfl h3
  · rfl

theorem get_unknown_path_not_found_witness :
    ContentSource.get emptySource "unknown/path" = .ok .notFound :=
  get_unknown_path_not_found emptySource "unknown/path" (by decide) (by decide)
    (by decide)

/-- **C7**: requesting `_devMiddlewareManifest.json` always returns exactly
the body `"[]"` with JSON content type, independent of the provider graph. -/
theorem get_middleware_manifest_constant :
    ∀ src : DevManifestContentSource,
      ContentSource.get src
          "_next/static/development/_devMiddlewareManifest.json" =
        .ok (.exact ⟨"[]", .json⟩) :=
  fun _ => rfl

/-- **C4**: the build manifest maps every page to exactly one chunk,
`"_next/static/chunks/pages" ++ assetPath pathname ".js"`, and carries the
rewrites value through unchanged; with an asset-path function sending
`("/home", ".js")` to `"home.js"`, the chunk list of `"/home"` is exactly
`["_next/static/chunks/pageshome.js"]`. -/
theorem create_build_manifest_chunks :
    (∀ (assetPath : String → String → String) (rewrites : Json)
        (pages : List String) (p : String) (chunks : List String),
      (p, chunks) ∈ (createBuildManifestObj assetPath rewrites pages).routes →
      chunks = ["_next/static/chunks/pages" ++ assetPath p ".js"])
    ∧ (∀ (assetPath : String → String → String) (rewrites : Json)
        (pages : List String),
      (createBuildManifestObj assetPath rewrites pages).rewrites = rewrites)
    ∧ (∀ (assetPath : String → String → String) (rewrites : Json),
      assetPath "/home" ".js" = "home.js" →
      (createBuildManifestObj assetPath rewrites ["/home"]).routes =
        [("/home", ["_next/static/chunks/pageshome.js"])]) := by
  refine ⟨?_, fun _ _ _ => rfl, ?_⟩
  · intro ap r pages p chunks hmem
    simp only [createBuildManifestObj, buildManifestRoutes, List.mem_map]
      at hmem
    obtain ⟨q, hq, heq⟩ := hmem
    cases heq
    rfl
  · intro ap r hap
    simp only [createBuildManifestObj, buildManifestRoutes, List.map_cons,
      List.map_nil, hap]
    decide

theorem create_build_manifest_chunks_witness :
    ((createBuildManifestObj (fun _ _ => "home.js") (Json.arr [])
        ["/home"]).routes =
      [("/home", ["_next/static/chunks/pageshome.js"])])
    ∧ ["_next/static/chunks/pageshome.js"] =
        ["_next/static/chunks/pages" ++ "home.js"] :=
  ⟨create_build_manifest_chunks.2.2 (fun _ _ => "home.js") (Json.arr []) rfl,
   create_build_manifest_chunks.1 (fun _ _ => "home.js") (Json.arr [])
     ["/home"] "/home" ["_next/static/chunks/pageshome.js"] (by decide)⟩

/-- The route keys of the serialized flattened route map are the pages
themselves, in order. -/
theorem map_fst_routes (assetPath : String → String → String) :
    ∀ pages : List String,
      (((buildManifestRoutes assetPath pages).map fun pr =>
        (pr.1, Json.arr (pr.2.map Json.str))).map Prod.fst) = pages
  | [] => rfl
  | p :: ps => by
    simp only [buildManifestRoutes, List.map_cons] at *
    rw [show ((ps.map fun pathname => (pathname,
      ["_next/static/chunks/pages" ++ assetPath pathname ".js"])).map fun pr =>
        (pr.1, Json.arr (pr.2.map Json.str))).map Prod.fst = ps from
      map_fst_routes assetPath ps]

/-- **C9**: the serialized build-manifest object puts the rewrites value
under the literal top-level key `"__rewrites"` (first), the page list under
the literal top-level key `"sortedPages"` (the camel-casing of
`sorted_pages`, second), and each page's chunk list directly as a top-level
key of the object — flattened, not nested under a `"routes"` key — with the
route keys in the order of the sorted page list. -/
theorem build_manifest_serialization_layout :
    (∀ (assetPath : String → String → String) (rewrites : Json)
        (pages : List String),
      (serializeBuildManifest
          (createBuildManifestObj assetPath rewrites pages)).map Prod.fst =
        "__rewrites" :: "sortedPages" :: pages)
    ∧ String.mk (camelCaseChars "sorted_pages".data) = "sortedPages"
    ∧ (∀ (assetPath : String → String → String) (rewrites : Json)
        (pages : List String),
      (serializeBuildManifest
          (createBuildManifestObj assetPath rewrites pages)).head? =
        some ("__rewrites", rewrites))
    ∧ (∀ (assetPath : String → String → String) (rewrites : Json)
        (pages : List String),
      (serializeBuildManifest
          (createBuildManifestObj assetPath rewrites pages)).get? 1 =
        some ("sortedPages", Json.arr (pages.map Json.str)))
    ∧ (∀ (assetPath : String → String → String) (rewrites : Json)
        (pages : List String) (p : String) (chunks : List String),
      (p, chunks) ∈ (createBuildManifestObj assetPath rewrites pages).routes →
      (p, Json.arr (chunks.map Json.str)) ∈
        serializeBuildManifest
          (createBuildManifestObj assetPath rewrites pages)) := by
  have hcc : String.mk (camelCaseChars "sorted_pages".data) = "sortedPages" :=
    by decide
  refine ⟨?_, hcc, fun _ _ _ => rfl, ?_, ?_⟩
  · intro ap r pages
    simp only [serializeBuildManifest, createBuildManifestObj, List.map_cons,
      hcc, map_fst_routes]
  · intro ap r pages
    simp [serializeBuildManifest, createBuildManifestObj, hcc]
  · intro ap r pages p chunks hmem
    exact List.mem_cons_of_mem _ (List.mem_cons_of_mem _
      (List.mem_map_of_mem _ hmem))

theorem build_manifest_serialization_layout_witness :
    ("/home", Json.arr [Json.str "_next/static/chunks/pageshome.js"]) ∈
      serializeBuildManifest (createBuildManifestObj (fun _ _ => "home.js")
        (Json.arr []) ["/home"]) :=
  build_manifest_serialization_layout.2.2.2.2 (fun _ _ => "home.js")
    (Json.arr []) ["/home"] "/home" ["_next/static/chunks/pageshome.js"]
    (by decide)

/-- **C10**: segment classification is total with a `Static` fallback:
`CatchAll` iff the segment starts with `[[` and ends with `]]`; otherwise
`Slug` iff it starts with `[` and ends with `]`; otherwise `Static` carrying
the full literal text — so `"[id"`, `"id]"` and `""` are `Static` — and two
`Static` keys compare lexicographically by that full text. -/
theorem page_sort_key_classification :
    (∀ s : String, pageSortKeyOfSeg s = .CatchAll ↔
      (['[', '['].isPrefixOf s.data ∧ [']', ']'].isSuffixOf s.data))
    ∧ (∀ s : String,
        ¬(['[', '['].isPrefixOf s.data ∧ [']', ']'].isSuffixOf s.data) →
        (pageSortKeyOfSeg s = .Slug ↔
          (['['].isPrefixOf s.data ∧ [']'].isSuffixOf s.data)))
    ∧ (∀ s : String,
        ¬(['[', '['].isPrefixOf s.data ∧ [']', ']'].isSuffixOf s.data) →
        ¬(['['].isPrefixOf s.data ∧ [']'].isSuffixOf s.data) →
        pageSortKeyOfSeg s = .Static s.data)
    ∧ pageSortKeyOfSeg "[id" = .Static "[id".data
    ∧ pageSortKeyOfSeg "id]" = .Static "id]".data
    ∧ pageSortKeyOfSeg "" = .Static []
    ∧ (∀ a b, cmpPSK (.Static a) (.Static b) = lexCmp cmpChar a b) := by
  refine ⟨?_, ?_, ?_, by decide, by decide, by decide, fun _ _ => rfl⟩
  · intro s
    unfold pageSortKeyOfSeg pageSortKeyFrom
    split_ifs with h1 h2
    · rw [Bool.and_eq_true] at h1
      simp [h1.1, h1.2]
    · rw [Bool.and_eq_true] at h1
      simp only [reduceCtorEq, false_iff]
      intro hps
      exact h1 ⟨hps.1, hps.2⟩
    · rw [Bool.and_eq_true] at h1
      simp only [reduceCtorEq, false_iff]
      intro hps
      exact h1 ⟨hps.1, hps.2⟩
  · intro s hn
    unfold pageSortKeyOfSeg pageSortKeyFrom
    have hb : ¬(['[', '['].isPrefixOf s.data &&
        [']', ']'].isSuffixOf s.data) = true := by
      rw [Bool.and_eq_true]
      exact hn
    rw [if_neg hb]
    split_ifs with h2
    · rw [Bool.and_eq_true] at h2
      simp [h2.1, h2.2]
    · rw [Bool.and_eq_true] at h2
      simp only [reduceCtorEq, false_iff]
      intro hps
      exact h2 ⟨hps.1, hps.2⟩
  · intro s hn hn2
    unfold pageSortKeyOfSeg pageSortKeyFrom
    have hb : ¬(['[', '['].isPrefixOf s.data &&
        [']', ']'].isSuffixOf s.data) = true := by
      rw [Bool.and_eq_true]
      exact hn
    have hb2 : ¬(['['].isPrefixOf s.data && [']'].isSuffixOf s.data) = true := by
      rw [Bool.and_eq_true]
      exact hn2
    rw [if_neg hb, if_neg hb2]

theorem page_sort_key_classification_witness :
    (pageSortKeyOfSeg "[id]" = .Slug ↔
      (['['].isPrefixOf "[id]".data ∧ [']'].isSuffixOf "[id]".data))
    ∧ pageSortKeyOfSeg "about" = .Static "about".data :=
  ⟨page_sort_key_classification.2.1 "[id]" (by decide),
   page_sort_key_classification.2.2.1 "about" (by decide) (by decide)⟩

/-- **C8**: the order-and-dedup stage (stable sort by the per-segment key,
then removal of adjacent duplicates) is idempotent. -/
theorem order_and_dedup_idempotent :
    ∀ l : List String, orderAndDedup (orderAndDedup l) = orderAndDedup l :=
  orderAndDedup_idem
